import Mathlib

/-!
Verification of the byte-string scanning core of the `bstr` crate: the UTF-8
decode primitive with maximal-subparts error substitution, character
iteration, substring search (forward and reverse), match iteration and
replacement.  Byte buffers are modelled as `List Nat` (each element a byte
value), codepoints as `Nat`, and the replacement marker as the in-band
outcome `none` paired with a positive consumed count.
-/

namespace Bstr

/-- Test for a UTF-8 continuation byte, i.e. a byte of shape `10xxxxxx`. -/
def isCont (b : Nat) : Bool := decide (0x80 ≤ b ∧ b ≤ 0xBF)

/-- Valid second bytes of a three-byte sequence, given the lead byte:
`0xE0` restricts to `0xA0..0xBF` (no overlong forms) and `0xED` to
`0x80..0x9F` (no surrogates); other leads accept any continuation byte. -/
def second3 (b0 b1 : Nat) : Bool :=
  if b0 = 0xE0 then decide (0xA0 ≤ b1 ∧ b1 ≤ 0xBF)
  else if b0 = 0xED then decide (0x80 ≤ b1 ∧ b1 ≤ 0x9F)
  else isCont b1

/-- Valid second bytes of a four-byte sequence, given the lead byte:
`0xF0` restricts to `0x90..0xBF` (no overlong forms) and `0xF4` to
`0x80..0x8F` (nothing above `U+10FFFF`); other leads accept any
continuation byte. -/
def second4 (b0 b1 : Nat) : Bool :=
  if b0 = 0xF0 then decide (0x90 ≤ b1 ∧ b1 ≤ 0xBF)
  else if b0 = 0xF4 then decide (0x80 ≤ b1 ∧ b1 ≤ 0x8F)
  else isCont b1

/-- Modelled from the spec: the forward UTF-8 decode primitive of the crate's
`utf8` module, which is not present under `src/`.  Classifies the lead byte
into an expected length of 1 to 4 bytes, greedily consumes continuation
bytes, and rejects overlong and surrogate encodings via the restricted
second-byte ranges.  The result pairs `some codepoint` (valid decode) or
`none` (replacement marker) with the number of bytes consumed; under the
maximal-subparts rule an invalid outcome consumes the longest prefix that
could still have started a valid sequence, at least 1 byte, and an empty
buffer yields `(none, 0)`. -/
def decode_utf8 : List Nat → Option Nat × Nat
  | [] => (none, 0)
  | b0 :: rest =>
    if b0 ≤ 0x7F then (some b0, 1)
    else if b0 < 0xC2 then (none, 1)
    else if b0 ≤ 0xDF then
      match rest with
      | [] => (none, 1)
      | b1 :: _ =>
        if isCont b1 then (some ((b0 - 0xC0) * 0x40 + (b1 - 0x80)), 2)
        else (none, 1)
    else if b0 ≤ 0xEF then
      match rest with
      | [] => (none, 1)
      | b1 :: rest1 =>
        if second3 b0 b1 then
          match rest1 with
          | [] => (none, 2)
          | b2 :: _ =>
            if isCont b2 then
              (some ((b0 - 0xE0) * 0x1000 + (b1 - 0x80) * 0x40 + (b2 - 0x80)), 3)
            else (none, 2)
        else (none, 1)
    else if b0 ≤ 0xF4 then
      match rest with
      | [] => (none, 1)
      | b1 :: rest1 =>
        if second4 b0 b1 then
          match rest1 with
          | [] => (none, 2)
          | b2 :: rest2 =>
            if isCont b2 then
              match rest2 with
              | [] => (none, 3)
              | b3 :: _ =>
                if isCont b3 then
                  (some ((b0 - 0xF0) * 0x40000 + (b1 - 0x80) * 0x1000 +
                    (b2 - 0x80) * 0x40 + (b3 - 0x80)), 4)
                else (none, 3)
            else (none, 2)
        else (none, 1)
    else (none, 1)

/-- Modelled from the spec: exhaustive forward character iteration with byte
ranges (the crate's `char_indices` iterator, not present under `src/`),
written with explicit fuel so that it computes by kernel reduction.  Each
step applies `decode_utf8`, records the span `(start, end, result)`, and
advances by the consumed count. -/
def spansAux : Nat → List Nat → Nat → List (Nat × Nat × Option Nat)
  | 0, _, _ => []
  | _, [], _ => []
  | fuel + 1, b :: t, pos =>
    let r := decode_utf8 (b :: t)
    (pos, pos + r.2, r.1) :: spansAux fuel ((b :: t).drop r.2) (pos + r.2)

/-- Modelled from the spec: the `char_indices` iterator of the crate, not
present under `src/`, as the list of character spans `(start, end, char)`
with the replacement codepoint `U+FFFD` substituted for invalid spans. -/
def char_indices (bs : List Nat) : List (Nat × Nat × Nat) :=
  (spansAux bs.length bs 0).map (fun s => (s.1, s.2.1, s.2.2.getD 0xFFFD))

/-- Modelled from the spec: the `chars` iterator of the crate, not present
under `src/`, as the list of decoded codepoints with the replacement
codepoint `U+FFFD` substituted for invalid spans. -/
def chars (bs : List Nat) : List Nat :=
  (char_indices bs).map (fun s => s.2.2)

/-- Length of the longest suffix of the buffer made entirely of continuation
bytes; the reverse decode primitive steps backward over at most 3 of them. -/
def trailCont : List Nat → Nat
  | [] => 0
  | b :: t => if trailCont t = t.length ∧ isCont b then t.length + 1 else trailCont t

/-- Modelled from the spec: the reverse UTF-8 decode primitive
(`decode_last_utf8`) of the crate's `utf8` module, which is not present
under `src/`.  Mirrors the forward primitive by scanning backward from the
end of the buffer: it steps back over continuation bytes (at most 3, never
past the start), decodes forward from the candidate lead position, and
accepts that result only when it consumes exactly to the end of the buffer;
otherwise a single trailing byte is taken as one invalid unit. -/
def decode_last_utf8 (bs : List Nat) : Option Nat × Nat :=
  match bs with
  | [] => (none, 0)
  | _ :: _ =>
    let m := min (trailCont bs + 1) (min bs.length 4)
    let r := decode_utf8 (bs.drop (bs.length - m))
    if r.2 = m then r else (none, 1)

/-- Last span of exhaustive forward decoding, with fuel for kernel
computation: repeatedly applies `decode_utf8`, advancing by the consumed
count, and keeps the final `(result, consumed)` pair. -/
def lastSpanAux : Nat → List Nat → Option Nat × Nat → Option Nat × Nat
  | 0, _, acc => acc
  | fuel + 1, bs, acc =>
    match bs with
    | [] => acc
    | b :: t =>
      let r := decode_utf8 (b :: t)
      lastSpanAux fuel ((b :: t).drop r.2) r

/-- The `(result, consumed)` pair of the last span produced by decoding the
whole buffer forward to exhaustion; `(none, 0)` for the empty buffer. -/
def lastSpan (bs : List Nat) : Option Nat × Nat :=
  lastSpanAux bs.length bs (none, 0)

/-- A match of the pattern at byte offset `i` of the haystack: the slice
`H[i .. i + P.length)` exists and equals the pattern. -/
def MatchAt (P H : List Nat) (i : Nat) : Prop :=
  i + P.length ≤ H.length ∧ (H.drop i).take P.length = P

instance (P H : List Nat) (i : Nat) : Decidable (MatchAt P H i) := by
  unfold MatchAt; infer_instance

/-- Forward scan helper: the least offset `≥ i` at which the pattern is a
prefix of the remaining haystack suffix. -/
def findAux (P : List Nat) : List Nat → Nat → Option Nat
  | [], i => if MatchAt P [] 0 then some i else none
  | b :: t, i =>
    if MatchAt P (b :: t) 0 then some i else findAux P t (i + 1)

/-- Modelled from the spec: the forward Matcher search `find` of the crate's
`search` module, which is not present under `src/`.  Returns the leftmost
byte offset at which the pattern occurs in the haystack, or `none`; the
empty pattern matches at offset 0 of anything. -/
def find (P H : List Nat) : Option Nat :=
  findAux P H 0

/-- Forward search restricted to offsets `≥ i`. -/
def findFrom (P H : List Nat) (i : Nat) : Option Nat :=
  (findAux P (H.drop i) 0).map (· + i)

/-- Reverse scan helper: the greatest offset `≤ hi` at which the pattern
matches, found by scanning offsets downward from `hi`. -/
def rfindFrom (P H : List Nat) : Nat → Option Nat
  | 0 => if MatchAt P H 0 then some 0 else none
  | j + 1 =>
    if MatchAt P H (j + 1) then some (j + 1) else rfindFrom P H j

/-- Modelled from the spec: the reverse Matcher search `rfind` of the
crate's `search` module, which is not present under `src/`.  Returns the
rightmost byte offset at which the pattern occurs in the haystack, or
`none`; the empty pattern matches at the haystack length. -/
def rfind (P H : List Nat) : Option Nat :=
  rfindFrom P H H.length

/-- Forward match iteration with fuel: repeatedly searches from the current
offset, emits each match start, and resumes just past the match end
(advancing by at least 1 even for a zero-length pattern). -/
def findIterAux (P H : List Nat) : Nat → Nat → List Nat
  | 0, _ => []
  | fuel + 1, i =>
    if i ≤ H.length then
      match findFrom P H i with
      | none => []
      | some j => j :: findIterAux P H fuel (j + max P.length 1)
    else []

/-- Modelled from the spec: the forward match sequence (`find_iter`) of the
crate, which is not present under `src/`: the non-overlapping left-to-right
sequence of match offsets, each new search resuming immediately after the
end of the previous match and advancing by at least 1 byte for a
zero-length pattern. -/
def find_iter (P H : List Nat) : List Nat :=
  findIterAux P H (H.length + 1) 0

/-- Reverse match iteration with fuel: repeatedly takes the rightmost match
at or below the current bound, then moves the bound strictly left of the
produced match start. -/
def rfindIterAux (P H : List Nat) : Nat → Nat → List Nat
  | 0, _ => []
  | fuel + 1, hi =>
    match rfindFrom P H hi with
    | none => []
    | some j =>
      j :: (if max P.length 1 ≤ j then rfindIterAux P H fuel (j - max P.length 1) else [])

/-- Modelled from the spec: the reverse match sequence of the crate, which
is not present under `src/`: the non-overlapping right-to-left sequence of
match offsets, each new search scanning strictly left of the previous
match start. -/
def rfind_iter (P H : List Nat) : List Nat :=
  rfindIterAux P H (H.length + 1) H.length

/-- Splices the replacement bytes over each match offset in turn, copying
the bytes between matches unchanged. -/
def replaceGo (R H : List Nat) (plen : Nat) : Nat → List Nat → List Nat
  | i, [] => H.drop i
  | i, j :: rest => (H.drop i).take (j - i) ++ R ++ replaceGo R H plen (j + plen) rest

/-- Modelled from the spec: the `replace` operation of the crate's owned
buffer type, which is not present under `src/`.  Substitutes every
non-overlapping occurrence of the pattern, found left to right by the
forward match sequence, with the replacement bytes, leaving all other
bytes unchanged. -/
def replace (P R H : List Nat) : List Nat :=
  replaceGo R H P.length 0 (find_iter P H)

/-- The span list tiles the half-open range `[lo, hi)`: each span starts
where the previous one ended, is non-empty, and the last one ends at
`hi`. -/
def Tiling {α : Type} : Nat → Nat → List (Nat × Nat × α) → Prop
  | lo, hi, [] => lo = hi
  | lo, hi, (s, e, _) :: rest => s = lo ∧ lo < e ∧ Tiling e hi rest

lemma second3_cont {b0 b1 : Nat} (h : second3 b0 b1 = true) : isCont b1 = true := by
  unfold second3 at h
  unfold isCont at *
  split at h <;> [skip; split at h] <;> simp_all <;> omega

lemma second4_cont {b0 b1 : Nat} (h : second4 b0 b1 = true) : isCont b1 = true := by
  unfold second4 at h
  unfold isCont at *
  split at h <;> [skip; split at h] <;> simp_all <;> omega

lemma decode_consumed_bounds (b : Nat) (t : List Nat) :
    1 ≤ (decode_utf8 (b :: t)).2 ∧ (decode_utf8 (b :: t)).2 ≤ (b :: t).length ∧
      (decode_utf8 (b :: t)).2 ≤ 4 := by
  rcases t with _ | ⟨b1, _ | ⟨b2, _ | ⟨b3, t3⟩⟩⟩ <;>
    (simp only [decode_utf8, List.length_cons]; repeat' split) <;> omega

lemma decode_cont_lead {b : Nat} (t : List Nat) (h : isCont b = true) :
    decode_utf8 (b :: t) = (none, 1) := by
  unfold isCont at h
  simp only [decide_eq_true_eq] at h
  simp only [decode_utf8]
  rw [if_neg (by omega), if_pos (by omega)]

lemma decode_two_le_lead (b : Nat) (t : List Nat)
    (h2 : 2 ≤ (decode_utf8 (b :: t)).2) : isCont b = false := by
  by_contra h
  rw [decode_cont_lead t (by simpa using h)] at h2
  simp at h2

lemma decode_tail_cont (b : Nat) (t : List Nat) :
    (t.take ((decode_utf8 (b :: t)).2 - 1)).all isCont = true := by
  rcases t with _ | ⟨b1, _ | ⟨b2, _ | ⟨b3, t3⟩⟩⟩ <;>
    (simp only [decode_utf8]; repeat' split) <;>
    simp_all <;>
    first
      | exact second3_cont (by assumption)
      | exact second4_cont (by assumption)

lemma trailCont_le (l : List Nat) : trailCont l ≤ l.length := by
  induction l with
  | nil => simp [trailCont]
  | cons b t ih =>
    simp only [trailCont, List.length_cons]
    split <;> omega

lemma trailCont_eq_length_iff (l : List Nat) :
    trailCont l = l.length ↔ l.all isCont = true := by
  induction l with
  | nil => simp [trailCont]
  | cons b t ih =>
    have hle := trailCont_le t
    simp only [trailCont, List.length_cons, List.all_cons, Bool.and_eq_true]
    split <;> rename_i hc
    · simp [hc.2, ih.mp hc.1]
    · constructor
      · intro h; omega
      · intro h
        exact absurd ⟨ih.mpr h.2, h.1⟩ hc

lemma trailCont_append_all {ys : List Nat} (h : ys.all isCont = true) (xs : List Nat) :
    trailCont (xs ++ ys) = trailCont xs + ys.length := by
  induction xs with
  | nil =>
    simp only [List.nil_append, trailCont, Nat.zero_add]
    exact (trailCont_eq_length_iff ys).mpr h
  | cons x xs ih =>
    simp only [List.cons_append, trailCont, List.append_eq, ih, List.length_append]
    have h1 := trailCont_le xs
    by_cases hx : trailCont xs = xs.length ∧ isCont x = true
    · rw [if_pos ⟨by omega, hx.2⟩, if_pos hx]
      omega
    · have hcon : ¬(trailCont xs + ys.length = xs.length + ys.length ∧ isCont x = true) := by
        intro hc
        exact hx ⟨by omega, hc.2⟩
      rw [if_neg hcon, if_neg hx]

lemma trailCont_append_notall {ys : List Nat} (h : ¬ ys.all isCont = true) (xs : List Nat) :
    trailCont (xs ++ ys) = trailCont ys := by
  induction xs with
  | nil => simp
  | cons x xs ih =>
    have h2 := trailCont_le ys
    have hlt : trailCont ys < ys.length :=
      lt_of_le_of_ne h2 (fun he => h ((trailCont_eq_length_iff ys).mp he))
    simp only [List.cons_append, trailCont, List.append_eq, ih, List.length_append]
    have hcon : ¬(trailCont ys = xs.length + ys.length ∧ isCont x = true) := by
      intro hc
      have := hc.1
      omega
    simp only [if_neg hcon]

/-- C1: the forward decode primitive implements Unicode maximal-subparts
error substitution: an isolated invalid lead byte `0xFF` is consumed as
exactly 1 byte yielding one replacement marker; the 3-byte legal prefix
`0xF0 0x9F 0x87` of a 4-byte sequence that never completes is consumed as
one replacement spanning all 3 bytes; `0xE2 0x98` followed by a valid ASCII
byte yields one replacement spanning only the first 2 bytes, with decoding
resuming at the ASCII byte; `chars` of `a \xFF \xFF z` yields
`[a, replacement, replacement, z]` and `char_indices` of `a \xE2 \x98 z`
yields `[(0,1,a), (1,3,replacement), (3,4,z)]`. -/
theorem decode_maximal_subparts :
    (∀ t : List Nat, decode_utf8 (0xFF :: t) = (none, 1)) ∧
    decode_utf8 [0xF0, 0x9F, 0x87] = (none, 3) ∧
    (∀ (a : Nat) (t : List Nat), a ≤ 0x7F →
      decode_utf8 (0xE2 :: 0x98 :: a :: t) = (none, 2) ∧
      decode_utf8 (a :: t) = (some a, 1)) ∧
    chars [0x61, 0xFF, 0xFF, 0x7A] = [0x61, 0xFFFD, 0xFFFD, 0x7A] ∧
    char_indices [0x61, 0xE2, 0x98, 0x7A] =
      [(0, 1, 0x61), (1, 3, 0xFFFD), (3, 4, 0x7A)] := by
  refine ⟨?_, by decide, ?_, by decide, by decide⟩
  · intro t
    simp [decode_utf8]
  · intro a t ha
    have hca : isCont a = false := by
      unfold isCont
      simp only [decide_eq_false_iff_not]
      omega
    constructor
    · simp [decode_utf8, second3, isCont, hca]
      omega
    · simp only [decode_utf8]
      rw [if_pos ha]

/-- Witness for `decode_maximal_subparts`: the ASCII-resumption clause
evaluated at the concrete byte 0x7A with an empty tail. -/
theorem decode_maximal_subparts_witness :
    decode_utf8 [0xE2, 0x98, 0x7A] = (none, 2) ∧
      decode_utf8 [0x7A] = (some 0x7A, 1) :=
  decode_maximal_subparts.2.2.1 0x7A [] (by decide)

lemma tiling_le {α : Type} : ∀ (l : List (Nat × Nat × α)) (lo hi : Nat),
    Tiling lo hi l → lo ≤ hi := by
  intro l
  induction l with
  | nil => intro lo hi h; exact Nat.le_of_eq h
  | cons s rest ih =>
    intro lo hi h
    obtain ⟨s1, s2, s3⟩ := s
    obtain ⟨hs, hlt, htl⟩ := h
    have := ih _ _ htl
    omega

lemma tiling_sum {α : Type} : ∀ (l : List (Nat × Nat × α)) (lo hi : Nat),
    Tiling lo hi l → (l.map (fun s => s.2.1 - s.1)).sum = hi - lo := by
  intro l
  induction l with
  | nil =>
    intro lo hi h
    simp only [Tiling] at h
    simp [h]
  | cons s rest ih =>
    intro lo hi h
    obtain ⟨s1, s2, s3⟩ := s
    obtain ⟨hs, hlt, htl⟩ := h
    have hsum := ih _ _ htl
    have hle := tiling_le rest _ _ htl
    simp only [List.map_cons, List.sum_cons, hsum]
    omega

lemma tiling_map :
    ∀ (l : List (Nat × Nat × Option Nat)) (lo hi : Nat),
      Tiling lo hi (l.map (fun s => (s.1, s.2.1, s.2.2.getD 0xFFFD))) ↔ Tiling lo hi l := by
  intro l
  induction l with
  | nil => intro lo hi; exact Iff.rfl
  | cons s rest ih =>
    intro lo hi
    obtain ⟨s1, s2, s3⟩ := s
    simp only [List.map_cons, Tiling, ih]

lemma spansAux_tiling : ∀ (fuel : Nat) (bs : List Nat) (pos : Nat),
    bs.length ≤ fuel → Tiling pos (pos + bs.length) (spansAux fuel bs pos) := by
  intro fuel
  induction fuel with
  | zero =>
    intro bs pos h
    have : bs = [] := List.length_eq_zero.mp (Nat.le_zero.mp h)
    subst this
    simp [spansAux, Tiling]
  | succ fuel ih =>
    intro bs pos h
    match bs with
    | [] => simp [spansAux, Tiling]
    | b :: t =>
      obtain ⟨h1, h2, _⟩ := decode_consumed_bounds b t
      simp only [spansAux, Tiling]
      refine ⟨trivial, by omega, ?_⟩
      have hlen : ((b :: t).drop (decode_utf8 (b :: t)).2).length =
          (b :: t).length - (decode_utf8 (b :: t)).2 := List.length_drop _ _
      have hfuel : ((b :: t).drop (decode_utf8 (b :: t)).2).length ≤ fuel := by
        simp only [hlen, List.length_cons] at *
        omega
      have := ih ((b :: t).drop (decode_utf8 (b :: t)).2) (pos + (decode_utf8 (b :: t)).2) hfuel
      rw [hlen] at this
      have heq : pos + (decode_utf8 (b :: t)).2 + ((b :: t).length - (decode_utf8 (b :: t)).2) =
          pos + (b :: t).length := by
        simp only [List.length_cons] at *
        omega
      rwa [heq] at this

/-- C3: exhaustive forward decoding consumes exactly `len` bytes in total,
and the character spans produced tile the range `[0, len)` in order with no
gap and no overlap. -/
theorem decode_spans_cover (bs : List Nat) :
    ((char_indices bs).map (fun s => s.2.1 - s.1)).sum = bs.length ∧
      Tiling 0 bs.length (char_indices bs) := by
  have ht : Tiling 0 bs.length (char_indices bs) := by
    unfold char_indices
    rw [tiling_map]
    simpa using spansAux_tiling bs.length bs 0 (Nat.le_refl _)
  refine ⟨?_, ht⟩
  simpa using tiling_sum (char_indices bs) 0 bs.length ht

lemma lastSpanAux_nil (fuel : Nat) (acc : Option Nat × Nat) :
    lastSpanAux fuel [] acc = acc := by
  cases fuel <;> rfl

lemma all_drop {p : Nat → Bool} (n : Nat) (l : List Nat) (h : l.all p = true) :
    (l.drop n).all p = true := by
  rw [List.all_eq_true] at *
  exact fun x hx => h x (List.drop_subset n l hx)

lemma decode_all_cont {l : List Nat} (hne : l ≠ []) (h : l.all isCont = true) :
    decode_utf8 l = (none, 1) := by
  match l with
  | b :: t =>
    rw [List.all_cons, Bool.and_eq_true] at h
    exact decode_cont_lead t h.1

lemma decode_last_utf8_ne (bs : List Nat) (h : bs ≠ []) :
    decode_last_utf8 bs =
      if (decode_utf8 (bs.drop (bs.length - min (trailCont bs + 1) (min bs.length 4)))).2 =
          min (trailCont bs + 1) (min bs.length 4)
      then decode_utf8 (bs.drop (bs.length - min (trailCont bs + 1) (min bs.length 4)))
      else (none, 1) := by
  match bs with
  | b :: t => rfl

lemma drop_sub_append (xs ys : List Nat) (m : Nat) (hm : m ≤ ys.length) :
    (xs ++ ys).drop ((xs ++ ys).length - m) = ys.drop (ys.length - m) := by
  rw [List.length_append,
    show xs.length + ys.length - m = xs.length + (ys.length - m) from by omega,
    List.drop_append]

lemma trailCont_span (b : Nat) (t : List Nat) :
    trailCont ((b :: t).take (decode_utf8 (b :: t)).2) =
      if isCont b = true then (decode_utf8 (b :: t)).2
      else (decode_utf8 (b :: t)).2 - 1 := by
  obtain ⟨h1, hL, h4⟩ := decode_consumed_bounds b t
  obtain ⟨n, hn⟩ : ∃ n, (decode_utf8 (b :: t)).2 = n + 1 :=
    ⟨(decode_utf8 (b :: t)).2 - 1, by omega⟩
  have hall := decode_tail_cont b t
  rw [hn] at hall hL ⊢
  simp only [List.take_succ_cons, Nat.add_sub_cancel] at *
  have hlen : (t.take n).length = n := by
    simp only [List.length_take, List.length_cons] at *
    omega
  have hteq : trailCont (t.take n) = (t.take n).length :=
    (trailCont_eq_length_iff _).mpr hall
  simp only [trailCont, hteq, hlen, true_and]

lemma decode_last_full (b : Nat) (t : List Nat)
    (hfull : (decode_utf8 (b :: t)).2 = (b :: t).length) :
    decode_last_utf8 (b :: t) = decode_utf8 (b :: t) := by
  obtain ⟨h1, hL, h4⟩ := decode_consumed_bounds b t
  have hk : trailCont (b :: t) =
      if isCont b = true then (b :: t).length else (b :: t).length - 1 := by
    have h := trailCont_span b t
    rwa [hfull, List.take_length] at h
  have hm : min (trailCont (b :: t) + 1) (min (b :: t).length 4) =
      (decode_utf8 (b :: t)).2 := by
    rw [hk]
    split
    · rename_i hb
      have hdec := decode_cont_lead t hb
      have hc1 : (decode_utf8 (b :: t)).2 = 1 := by rw [hdec]
      omega
    · omega
  rw [decode_last_utf8_ne (b :: t) (by simp), hm, hfull, Nat.sub_self, List.drop_zero,
    if_pos hfull]

lemma decode_last_step (b : Nat) (t : List Nat)
    (hlt : (decode_utf8 (b :: t)).2 < (b :: t).length) :
    decode_last_utf8 (b :: t) = decode_last_utf8 ((b :: t).drop (decode_utf8 (b :: t)).2) := by
  obtain ⟨h1, hL, h4⟩ := decode_consumed_bounds b t
  set c := (decode_utf8 (b :: t)).2 with hc
  set rest := (b :: t).drop c with hrestdef
  set span := (b :: t).take c with hspandef
  have hsplit : span ++ rest = b :: t := List.take_append_drop c (b :: t)
  have hrest_len : rest.length = (b :: t).length - c := List.length_drop _ _
  have hspan_len : span.length = c := by
    have h := congrArg List.length hsplit
    rw [List.length_append, hrest_len] at h
    omega
  have hR : 1 ≤ rest.length := by omega
  have hrest_ne : rest ≠ [] := by
    intro hx
    rw [hx] at hR
    simp at hR
  have hkspan : trailCont span = if isCont b = true then c else c - 1 := trailCont_span b t
  by_cases hall : rest.all isCont = true
  · -- the remaining suffix is entirely continuation bytes: both sides are (none, 1)
    have hrhs : decode_last_utf8 rest = (none, 1) := by
      rw [decode_last_utf8_ne rest hrest_ne]
      have hm1 : 1 ≤ min (trailCont rest + 1) (min rest.length 4) := by omega
      have hwne : rest.drop (rest.length - min (trailCont rest + 1) (min rest.length 4)) ≠ [] := by
        apply List.length_pos.mp
        rw [List.length_drop]
        omega
      rw [decode_all_cont hwne (all_drop _ rest hall)]
      split <;> rfl
    rw [hrhs]
    have htc : trailCont (b :: t) = trailCont span + rest.length := by
      rw [← hsplit]
      exact trailCont_append_all hall span
    rw [decode_last_utf8_ne (b :: t) (by simp)]
    by_cases hb : isCont b = true
    · -- continuation lead byte: the whole buffer consists of continuation bytes
      have hdece := decode_cont_lead t hb
      have hc1 : c = 1 := by rw [hc, hdece]
      have ht_rest : rest = t := by
        rw [hrestdef, hc1]
        rfl
      have hballs : (b :: t).all isCont = true := by
        rw [List.all_cons, hb, ← ht_rest, hall]
        rfl
      have hkfull : trailCont (b :: t) = (b :: t).length :=
        (trailCont_eq_length_iff _).mpr hballs
      rw [hkfull]
      have hm24 : min ((b :: t).length + 1) (min (b :: t).length 4) =
          min (b :: t).length 4 := by omega
      rw [hm24]
      have hwne : (b :: t).drop ((b :: t).length - min (b :: t).length 4) ≠ [] := by
        apply List.length_pos.mp
        rw [List.length_drop]
        omega
      rw [decode_all_cont hwne (all_drop _ _ hballs)]
      rw [if_neg]
      simp only []
      omega
    · -- regular lead byte: the candidate window starts inside the last span
      rw [if_neg hb] at hkspan
      have hkb : trailCont (b :: t) = (b :: t).length - 1 := by
        rw [htc, hkspan]
        omega
      rw [hkb]
      have hm4 : min ((b :: t).length - 1 + 1) (min (b :: t).length 4) =
          min (b :: t).length 4 := by omega
      rw [hm4]
      by_cases hL4 : (b :: t).length ≤ 4
      · have hm2 : min (b :: t).length 4 = (b :: t).length := by omega
        rw [hm2, Nat.sub_self, List.drop_zero]
        rw [if_neg]
        rw [← hc]
        omega
      · -- buffer longer than 4: the window consists of continuation bytes only
        have hm2 : min (b :: t).length 4 = 4 := by omega
        rw [hm2]
        have htall : t.all isCont = true := by
          have hsp : t.take (c - 1) ++ t.drop (c - 1) = t := List.take_append_drop _ _
          have htdrop : t.drop (c - 1) = rest := by
            rw [hrestdef]
            obtain ⟨n, hn⟩ : ∃ n, c = n + 1 := ⟨c - 1, by omega⟩
            rw [hn, List.drop_succ_cons, Nat.add_sub_cancel]
          have htake : (t.take (c - 1)).all isCont = true := by
            have h := decode_tail_cont b t
            rwa [← hc] at h
          rw [← hsp, List.all_append, htake, htdrop, hall]
          rfl
        have hwin : (b :: t).drop ((b :: t).length - 4) = t.drop ((b :: t).length - 5) := by
          rw [show (b :: t).length - 4 = ((b :: t).length - 5) + 1 from by
            simp only [List.length_cons] at *
            omega]
          rw [List.drop_succ_cons]
        rw [hwin]
        have hwne : t.drop ((b :: t).length - 5) ≠ [] := by
          apply List.length_pos.mp
          rw [List.length_drop]
          simp only [List.length_cons] at *
          omega
        rw [decode_all_cont hwne (all_drop _ _ htall)]
        rw [if_neg]
        simp only []
        omega
  · -- the remaining suffix holds a non-continuation byte: identical windows
    have htc : trailCont (b :: t) = trailCont rest := by
      rw [← hsplit]
      exact trailCont_append_notall hall span
    have hkrlt : trailCont rest < rest.length :=
      lt_of_le_of_ne (trailCont_le rest)
        (fun he => hall ((trailCont_eq_length_iff rest).mp he))
    have hmeq : min (trailCont (b :: t) + 1) (min (b :: t).length 4) =
        min (trailCont rest + 1) (min rest.length 4) := by
      rw [htc]
      omega
    have hmle : min (trailCont rest + 1) (min rest.length 4) ≤ rest.length := by omega
    have hwin : (b :: t).drop
          ((b :: t).length - min (trailCont rest + 1) (min rest.length 4)) =
        rest.drop (rest.length - min (trailCont rest + 1) (min rest.length 4)) := by
      rw [← hsplit]
      exact drop_sub_append span rest _ hmle
    rw [decode_last_utf8_ne (b :: t) (by simp), decode_last_utf8_ne rest hrest_ne,
      hmeq, hwin]

lemma lastSpanAux_eq : ∀ (fuel : Nat) (bs : List Nat) (acc : Option Nat × Nat),
    bs.length ≤ fuel → bs ≠ [] → lastSpanAux fuel bs acc = decode_last_utf8 bs := by
  intro fuel
  induction fuel with
  | zero =>
    intro bs acc h hne
    exact absurd (List.length_eq_zero.mp (Nat.le_zero.mp h)) hne
  | succ fuel ih =>
    intro bs acc h hne
    match bs with
    | b :: t =>
      obtain ⟨h1, hL, h4⟩ := decode_consumed_bounds b t
      simp only [lastSpanAux]
      by_cases hfull : (decode_utf8 (b :: t)).2 = (b :: t).length
      · have hdrop : (b :: t).drop (decode_utf8 (b :: t)).2 = [] :=
          List.drop_eq_nil_iff.mpr (by omega)
        rw [hdrop, lastSpanAux_nil, decode_last_full b t hfull]
      · have hlt : (decode_utf8 (b :: t)).2 < (b :: t).length := lt_of_le_of_ne hL hfull
        have hne2 : (b :: t).drop (decode_utf8 (b :: t)).2 ≠ [] := by
          intro hx
          rw [List.drop_eq_nil_iff] at hx
          omega
        have hfl : ((b :: t).drop (decode_utf8 (b :: t)).2).length ≤ fuel := by
          rw [List.length_drop]
          simp only [List.length_cons] at *
          omega
        rw [ih _ _ hfl hne2, decode_last_step b t hlt]

/-- C4: for any byte buffer, a single application of the reverse decode
primitive yields exactly the same `(result, consumed)` span as the last span
produced by decoding the entire buffer forward to exhaustion. -/
theorem decode_last_symmetry (bs : List Nat) : decode_last_utf8 bs = lastSpan bs := by
  cases bs with
  | nil => rfl
  | cons b t =>
    exact (lastSpanAux_eq (b :: t).length (b :: t) (none, 0) (Nat.le_refl _) (by simp)).symm

lemma matchAt_cons (P : List Nat) (b : Nat) (t : List Nat) (k : Nat) :
    MatchAt P (b :: t) (k + 1) ↔ MatchAt P t k := by
  unfold MatchAt
  rw [List.drop_succ_cons, List.length_cons]
  constructor
  · intro h; exact ⟨by omega, h.2⟩
  · intro h; exact ⟨by omega, h.2⟩

lemma matchAt_nil {P : List Nat} {k : Nat} (h : MatchAt P [] k) : MatchAt P [] 0 := by
  unfold MatchAt at *
  simp only [List.length_nil, List.drop_nil] at *
  exact ⟨by omega, h.2⟩

lemma findAux_spec : ∀ (h P : List Nat) (i : Nat),
    (∀ j, findAux P h i = some j →
      i ≤ j ∧ MatchAt P h (j - i) ∧ ∀ k, MatchAt P h k → j - i ≤ k) ∧
    (findAux P h i = none → ∀ k, ¬ MatchAt P h k) := by
  intro h
  induction h with
  | nil =>
    intro P i
    constructor
    · intro j hj
      simp only [findAux] at hj
      split at hj
      · rename_i hmatch
        cases hj
        exact ⟨Nat.le_refl _, by simpa using hmatch, fun k _ => by omega⟩
      · cases hj
    · intro hn k hk
      simp only [findAux] at hn
      split at hn
      · cases hn
      · rename_i hnm
        exact hnm (matchAt_nil hk)
  | cons b t ih =>
    intro P i
    constructor
    · intro j hj
      simp only [findAux] at hj
      split at hj
      · rename_i hmatch
        cases hj
        exact ⟨Nat.le_refl _, by simpa using hmatch, fun k _ => by omega⟩
      · rename_i hnm
        obtain ⟨hij, hm, hmin⟩ := (ih P (i + 1)).1 j hj
        refine ⟨by omega, ?_, ?_⟩
        · have hji : j - i = (j - (i + 1)) + 1 := by omega
          rw [hji, matchAt_cons]
          exact hm
        · intro k hk
          cases k with
          | zero => exact absurd hk hnm
          | succ k =>
            have := hmin k ((matchAt_cons P b t k).mp hk)
            omega
    · intro hn k hk
      simp only [findAux] at hn
      split at hn
      · cases hn
      · rename_i hnm
        cases k with
        | zero => exact hnm hk
        | succ k => exact (ih P (i + 1)).2 hn k ((matchAt_cons P b t k).mp hk)

lemma rfindFrom_spec : ∀ (hi : Nat) (P H : List Nat),
    (∀ j, rfindFrom P H hi = some j →
      j ≤ hi ∧ MatchAt P H j ∧ ∀ k, MatchAt P H k → k ≤ hi → k ≤ j) ∧
    (rfindFrom P H hi = none → ∀ k, k ≤ hi → ¬ MatchAt P H k) := by
  intro hi
  induction hi with
  | zero =>
    intro P H
    constructor
    · intro j hj
      simp only [rfindFrom] at hj
      split at hj
      · rename_i hmatch
        cases hj
        exact ⟨Nat.le_refl _, hmatch, fun k _ hk0 => hk0⟩
      · cases hj
    · intro hn k hk hm
      simp only [rfindFrom] at hn
      split at hn
      · cases hn
      · rename_i hnm
        have : k = 0 := by omega
        subst this
        exact hnm hm
  | succ n ih =>
    intro P H
    constructor
    · intro j hj
      simp only [rfindFrom] at hj
      split at hj
      · rename_i hmatch
        cases hj
        exact ⟨Nat.le_refl _, hmatch, fun k _ hk => hk⟩
      · rename_i hnm
        obtain ⟨hjn, hm, hmax⟩ := (ih P H).1 j hj
        refine ⟨by omega, hm, ?_⟩
        intro k hk hkn
        rcases Nat.lt_or_ge k (n + 1) with hlt | hge
        · exact hmax k hk (by omega)
        · have : k = n + 1 := by omega
          subst this
          exact absurd hk hnm
    · intro hn k hk hm
      simp only [rfindFrom] at hn
      split at hn
      · cases hn
      · rename_i hnm
        rcases Nat.lt_or_ge k (n + 1) with hlt | hge
        · exact (ih P H).2 hn k (by omega) hm
        · have : k = n + 1 := by omega
          subst this
          exact hnm hm

/-- C2: for every haystack and pattern, the forward search returns the
smallest byte offset at which the pattern occurs, or `none` when it occurs
nowhere, and the reverse search returns the largest such offset, or
`none`. -/
theorem finder_correct (P H : List Nat) :
    (∀ i, find P H = some i → MatchAt P H i ∧ ∀ j, MatchAt P H j → i ≤ j) ∧
    (find P H = none → ∀ i, ¬ MatchAt P H i) ∧
    (∀ i, rfind P H = some i → MatchAt P H i ∧ ∀ j, MatchAt P H j → j ≤ i) ∧
    (rfind P H = none → ∀ i, ¬ MatchAt P H i) := by
  have hbound : ∀ j, MatchAt P H j → j ≤ H.length := fun j hj => by
    have := hj.1
    omega
  refine ⟨?_, ?_, ?_, ?_⟩
  · intro i hi
    obtain ⟨_, hm, hmin⟩ := (findAux_spec H P 0).1 i hi
    rw [Nat.sub_zero] at hm hmin
    exact ⟨hm, hmin⟩
  · intro hn i
    exact (findAux_spec H P 0).2 hn i
  · intro i hi
    obtain ⟨_, hm, hmax⟩ := (rfindFrom_spec H.length P H).1 i hi
    exact ⟨hm, fun j hj => hmax j hj (hbound j hj)⟩
  · intro hn i hm
    exact (rfindFrom_spec H.length P H).2 hn i (hbound i hm) hm

/-- Witness for `finder_correct`: the minimal-offset clause of the forward
search evaluated for pattern `[1]` in haystack `[0, 1]`. -/
theorem finder_correct_witness : MatchAt [1] [0, 1] 1 :=
  (((finder_correct [1] [0, 1]).1) 1 (by decide)).1

lemma matchAt_empty (H : List Nat) (i : Nat) (h : i ≤ H.length) :
    MatchAt [] H i := by
  unfold MatchAt
  simp [h]

lemma findAux_pos {P h : List Nat} {i : Nat} (hm : MatchAt P h 0) :
    findAux P h i = some i := by
  cases h <;> simp only [findAux, if_pos hm]

lemma rfindFrom_pos {P H : List Nat} {hi : Nat} (hm : MatchAt P H hi) :
    rfindFrom P H hi = some hi := by
  cases hi <;> simp only [rfindFrom, if_pos hm]

/-- C5: the empty pattern matches immediately: `find` returns offset 0 on
every haystack including the empty one, `rfind` returns the haystack
length; and whenever the pattern is longer than the haystack both searches
return `none`. -/
theorem empty_and_long_patterns :
    (∀ H : List Nat, find [] H = some 0) ∧
    (∀ H : List Nat, rfind [] H = some H.length) ∧
    (∀ P H : List Nat, H.length < P.length →
      find P H = none ∧ rfind P H = none) := by
  refine ⟨?_, ?_, ?_⟩
  · intro H
    exact findAux_pos (matchAt_empty H 0 (Nat.zero_le _))
  · intro H
    exact rfindFrom_pos (matchAt_empty H H.length (Nat.le_refl _))
  · intro P H hlen
    have hno : ∀ i, ¬ MatchAt P H i := by
      intro i hm
      have := hm.1
      omega
    constructor
    · cases hf : find P H with
      | none => rfl
      | some j =>
        exact absurd (((finder_correct P H).1 j hf).1) (hno j)
    · cases hf : rfind P H with
      | none => rfl
      | some j =>
        exact absurd (((finder_correct P H).2.2.1 j hf).1) (hno j)

/-- Witness for `empty_and_long_patterns`: the longer-than-haystack clause
evaluated for pattern `[1]` against the empty haystack. -/
theorem empty_and_long_patterns_witness :
    find [1] [] = none ∧ rfind [1] [] = none :=
  empty_and_long_patterns.2.2 [1] [] (by decide)

lemma matchAt_of_drop {P H : List Nat} {i k : Nat} (hi : i ≤ H.length)
    (h : MatchAt P (H.drop i) k) : MatchAt P H (i + k) := by
  unfold MatchAt at *
  rw [List.length_drop] at h
  refine ⟨by omega, ?_⟩
  rw [List.drop_drop] at h
  exact h.2

lemma findFrom_some {P H : List Nat} {i j : Nat} (hi : i ≤ H.length)
    (h : findFrom P H i = some j) : i ≤ j ∧ MatchAt P H j := by
  unfold findFrom at h
  cases hfa : findAux P (H.drop i) 0 with
  | none => rw [hfa] at h; cases h
  | some k =>
    rw [hfa] at h
    simp only [Option.map_some', Option.some.injEq] at h
    obtain ⟨_, hm, _⟩ := (findAux_spec (H.drop i) P 0).1 k hfa
    rw [Nat.sub_zero] at hm
    have hmk := matchAt_of_drop hi hm
    subst h
    exact ⟨by omega, by rwa [Nat.add_comm i k] at hmk⟩

lemma findIterAux_ge : ∀ (fuel : Nat) (P H : List Nat) (i x : Nat),
    x ∈ findIterAux P H fuel i → i ≤ x := by
  intro fuel
  induction fuel with
  | zero =>
    intro P H i x hx
    simp [findIterAux] at hx
  | succ fuel ih =>
    intro P H i x hx
    simp only [findIterAux] at hx
    split at hx
    · rename_i hi
      cases hff : findFrom P H i with
      | none => rw [hff] at hx; simp at hx
      | some j =>
        rw [hff] at hx
        simp only [List.mem_cons] at hx
        obtain ⟨hij, _⟩ := findFrom_some hi hff
        rcases hx with rfl | hx
        · exact hij
        · have h2 := ih P H (j + max P.length 1) x hx
          have h3 : 1 ≤ max P.length 1 := le_max_right _ _
          omega
    · simp at hx

lemma findIterAux_chain : ∀ (fuel : Nat) (P H : List Nat) (i : Nat),
    List.Chain' (fun a b => a + P.length ≤ b) (findIterAux P H fuel i) := by
  intro fuel
  induction fuel with
  | zero => intro P H i; simp [findIterAux]
  | succ fuel ih =>
    intro P H i
    simp only [findIterAux]
    split
    · cases hff : findFrom P H i with
      | none => simp
      | some j =>
        rw [List.chain'_cons']
        refine ⟨?_, ih P H (j + max P.length 1)⟩
        intro y hy
        have hmem := List.mem_of_mem_head? hy
        have h1 := findIterAux_ge fuel P H (j + max P.length 1) y hmem
        have h2 : P.length ≤ max P.length 1 := le_max_left _ _
        omega
    · simp

lemma rfindIterAux_le : ∀ (fuel : Nat) (P H : List Nat) (hi x : Nat),
    x ∈ rfindIterAux P H fuel hi → x ≤ hi := by
  intro fuel
  induction fuel with
  | zero =>
    intro P H hi x hx
    simp [rfindIterAux] at hx
  | succ fuel ih =>
    intro P H hi x hx
    simp only [rfindIterAux] at hx
    cases hrf : rfindFrom P H hi with
    | none => rw [hrf] at hx; simp at hx
    | some j =>
      rw [hrf] at hx
      simp only [List.mem_cons] at hx
      have hjhi := ((rfindFrom_spec hi P H).1 j hrf).1
      rcases hx with rfl | hx
      · exact hjhi
      · split at hx
        · rename_i hmax
          have h2 := ih P H (j - max P.length 1) x hx
          have h3 : 1 ≤ max P.length 1 := le_max_right _ _
          omega
        · simp at hx

lemma rfindIterAux_chain : ∀ (fuel : Nat) (P H : List Nat) (hi : Nat),
    List.Chain' (fun a b => b + P.length ≤ a) (rfindIterAux P H fuel hi) := by
  intro fuel
  induction fuel with
  | zero => intro P H hi; simp [rfindIterAux]
  | succ fuel ih =>
    intro P H hi
    simp only [rfindIterAux]
    cases hrf : rfindFrom P H hi with
    | none => simp
    | some j =>
      rw [List.chain'_cons']
      constructor
      · intro y hy
        have hmem := List.mem_of_mem_head? hy
        split at hmem
        · rename_i hmax
          have h1 := rfindIterAux_le fuel P H (j - max P.length 1) y hmem
          have h2 : P.length ≤ max P.length 1 := le_max_left _ _
          omega
        · simp at hmem
      · split
        · exact ih P H _
        · simp

/-- C6: matches of the forward match sequence are non-overlapping and in
increasing position (each next start is at least the previous end), matches
of the reverse sequence satisfy the mirror property, and the forward
sequence for pattern `foo` over `foo bar foo foo quux foo` is exactly
`[0, 8, 12, 21]`. -/
theorem match_sequence_nonoverlap :
    (∀ P H : List Nat, List.Chain' (fun a b => a + P.length ≤ b) (find_iter P H)) ∧
    (∀ P H : List Nat, List.Chain' (fun a b => b + P.length ≤ a) (rfind_iter P H)) ∧
    find_iter [102, 111, 111]
        [102, 111, 111, 32, 98, 97, 114, 32, 102, 111, 111, 32, 102, 111, 111,
          32, 113, 117, 117, 120, 32, 102, 111, 111] =
      [0, 8, 12, 21] :=
  ⟨fun P H => findIterAux_chain _ P H 0,
   fun P H => rfindIterAux_chain _ P H H.length,
   by decide⟩

lemma findFrom_empty (H : List Nat) (i : Nat) : findFrom [] H i = some i := by
  unfold findFrom
  rw [findAux_pos (matchAt_empty (H.drop i) 0 (Nat.zero_le _))]
  simp

lemma findIterAux_empty : ∀ (fuel : Nat) (H : List Nat) (i : Nat),
    findIterAux [] H fuel i = List.range' i (min fuel (H.length + 1 - i)) := by
  intro fuel
  induction fuel with
  | zero => intro H i; simp [findIterAux]
  | succ fuel ih =>
    intro H i
    simp only [findIterAux]
    split
    · rename_i hi
      rw [findFrom_empty]
      simp only [List.length_nil, Nat.zero_max]
      rw [ih H (i + 1)]
      rw [show min (fuel + 1) (H.length + 1 - i) = (min fuel (H.length + 1 - (i + 1))) + 1
        from by omega]
      rw [List.range'_succ]
    · rename_i hi
      rw [show min (fuel + 1) (H.length + 1 - i) = 0 from by omega]
      simp

/-- C7: for a zero-length pattern the forward match sequence terminates,
reporting each offset `0..=len` exactly once in increasing order; over the
haystack `ab` it yields exactly `[0, 1, 2]`. -/
theorem empty_pattern_termination :
    (∀ H : List Nat, find_iter [] H = List.range (H.length + 1)) ∧
    find_iter [] [97, 98] = [0, 1, 2] := by
  constructor
  · intro H
    unfold find_iter
    rw [findIterAux_empty]
    rw [show min (H.length + 1) (H.length + 1 - 0) = H.length + 1 from by omega]
    rw [List.range_eq_range']
  · decide

/-- C10: `replace` substitutes every non-overlapping occurrence of the
pattern found left to right by the forward match sequence with the
replacement bytes, leaving all other bytes unchanged: when no match exists
the haystack is returned intact, and replacing `foo` by `hello` in
`foo bar foo foo quux foo` yields `hello bar hello hello quux hello`. -/
theorem replace_matches :
    (∀ P R H : List Nat, find_iter P H = [] → replace P R H = H) ∧
    replace [102, 111, 111] [104, 101, 108, 108, 111]
        [102, 111, 111, 32, 98, 97, 114, 32, 102, 111, 111, 32, 102, 111, 111,
          32, 113, 117, 117, 120, 32, 102, 111, 111] =
      [104, 101, 108, 108, 111, 32, 98, 97, 114, 32, 104, 101, 108, 108, 111,
        32, 104, 101, 108, 108, 111, 32, 113, 117, 117, 120, 32, 104, 101,
        108, 108, 111] := by
  constructor
  · intro P R H h
    unfold replace
    rw [h]
    simp [replaceGo]
  · decide

/-- Witness for `replace_matches`: the no-match clause evaluated for
pattern `[120]`, replacement `[121]` and haystack `[97, 98]`. -/
theorem replace_matches_witness : replace [120] [121] [97, 98] = [97, 98] :=
  replace_matches.1 [120] [121] [97, 98] (by decide)

lemma decode_invalid_le3 (b : Nat) (t : List Nat) :
    (decode_utf8 (b :: t)).1 = none → (decode_utf8 (b :: t)).2 ≤ 3 := by
  rcases t with _ | ⟨b1, _ | ⟨b2, _ | ⟨b3, t3⟩⟩⟩ <;>
    (simp only [decode_utf8]; repeat' split) <;> simp

/-- C8: the decode primitive is total over arbitrary byte sequences with
all outcomes in-band: the empty buffer decodes to the absence outcome with
0 bytes consumed, and every non-empty buffer consumes between 1 and 4
bytes, never more than are available, with an invalid (replacement)
outcome consuming at most 3 bytes. -/
theorem core_total :
    decode_utf8 [] = (none, 0) ∧
    ∀ (b : Nat) (t : List Nat),
      1 ≤ (decode_utf8 (b :: t)).2 ∧ (decode_utf8 (b :: t)).2 ≤ 4 ∧
        (decode_utf8 (b :: t)).2 ≤ (b :: t).length ∧
        ((decode_utf8 (b :: t)).1 = none → (decode_utf8 (b :: t)).2 ≤ 3) := by
  refine ⟨rfl, fun b t => ?_⟩
  obtain ⟨h1, hL, h4⟩ := decode_consumed_bounds b t
  exact ⟨h1, h4, hL, decode_invalid_le3 b t⟩

/-- Witness for `core_total`: the replacement-consumption bound evaluated
at the isolated invalid byte `0xFF`. -/
theorem core_total_witness : (decode_utf8 [0xFF]).2 ≤ 3 :=
  (core_total.2 0xFF []).2.2.2 (by decide)

end Bstr
